import Mathlib

/-!
Verification of the zap CLI core (zap_cli/cli.py) against its
natural-language specification.

The development shallowly embeds the Python source: pure functions become
Lean functions over lists of characters and lists of bytes (naturals below
256); the filesystem-facing operations become functions over an explicit
state.  Python built-ins and third-party library calls (str.upper,
str.isalnum, bytes.fromhex, json serialization of the encrypted payload,
AES-GCM, UTF-8 codecs) are not part of the repository source; they are
modelled explicitly, each with a doc comment saying what is modelled.
-/

namespace Zap

/-! ## Name deriver (secret_name_to_env_var, cli.py lines 138-148) -/

/-- Modelled from the spec: Python str.upper applied to one character.
Exact on ASCII (lowercase letters map to their uppercase counterpart, all
other ASCII characters are fixed); on non-ASCII code points Python uses the
full Unicode case mapping, of which this model covers the code points
appearing in this development (the Latin small letter e with acute maps to
the capital letter). -/
def pyCharUpper (c : Char) : Char :=
  if 'a' ≤ c ∧ c ≤ 'z' then Char.ofNat (c.toNat - 32)
  else if c = 'é' then 'É' else c

/-- Modelled from the spec: Python str.isalnum on one character.  Exact on
ASCII (digits and letters); Python classifies per Unicode, of which this
model covers the code points appearing in this development (the accented
letters below are alphanumeric in Unicode). -/
def pyIsAlnum (c : Char) : Bool :=
  decide (('0' ≤ c ∧ c ≤ '9') ∨ ('A' ≤ c ∧ c ≤ 'Z') ∨ ('a' ≤ c ∧ c ≤ 'z')
    ∨ c = 'É' ∨ c = 'é')

/-- Python str.split with separator: cuts the character list at every
underscore, keeping empty tokens between consecutive separators and at the
ends. -/
def splitUnderscore : List Char → List (List Char)
  | [] => [[]]
  | c :: rest =>
    if c = '_' then [] :: splitUnderscore rest
    else
      match splitUnderscore rest with
      | [] => [[c]]
      | t :: ts => (c :: t) :: ts

/-- Python "_".join: concatenates the tokens with a single underscore
between adjacent tokens. -/
def joinUnderscore : List (List Char) → List Char
  | [] => []
  | t :: ts =>
    match ts with
    | [] => t
    | _ :: _ => t ++ '_' :: joinUnderscore ts

/-- Line 143 of cli.py: clean_name = "_".join(filter(None, clean_name.split("_"))).
Splits on underscore, discards empty tokens, rejoins with single
underscores. -/
def collapseTokens (l : List Char) : List Char :=
  joinUnderscore ((splitUnderscore l).filter fun t => !t.isEmpty)

/-- secret_name_to_env_var from cli.py lines 138-148.  The name is
uppercased, every non-alphanumeric character is replaced by an underscore,
and runs of underscores are collapsed; a truthy (non-None, non-empty)
prefix value is uppercased and has its non-alphanumerics replaced, without
the collapsing step, and is prepended with a single underscore. -/
def secret_name_to_env_var (secret_name : String) (pfx : Option String) : String :=
  let clean0 : List Char :=
    (secret_name.data.map pyCharUpper).map fun c => if pyIsAlnum c then c else '_'
  let clean_name : List Char := collapseTokens clean0
  match pfx with
  | some p =>
    if p = "" then ⟨clean_name⟩
    else
      let clean_pfx : List Char :=
        (p.data.map pyCharUpper).map fun c => if pyIsAlnum c then c else '_'
      ⟨clean_pfx ++ '_' :: clean_name⟩
  | none => ⟨clean_name⟩

/-- The replace stage exactly as the spec words it: uppercase, then replace
every character that is not alphanumeric with an underscore. -/
def specReplaceStage (s : String) : String :=
  ⟨(s.data.map pyCharUpper).map fun c => if pyIsAlnum c then c else '_'⟩

/-- The full transformation exactly as the spec words it: uppercase,
replace non-alphanumerics with underscore, then collapse runs of
underscores by splitting on underscore, discarding empty tokens and
rejoining with single underscores. -/
def specFullTransform (s : String) : String :=
  ⟨collapseTokens ((s.data.map pyCharUpper).map fun c => if pyIsAlnum c then c else '_')⟩

/-- The transformation the claim about ASCII classification describes:
identical to the full transformation except that a character is kept
exactly when it is an ASCII letter or ASCII digit. -/
def specAsciiFullTransform (s : String) : String :=
  ⟨collapseTokens ((s.data.map pyCharUpper).map fun c =>
    if ('0' ≤ c ∧ c ≤ '9') ∨ ('A' ≤ c ∧ c ≤ 'Z') ∨ ('a' ≤ c ∧ c ≤ 'z') then c else '_')⟩

/-! Helper lemmas about the collapse stage. -/

theorem mem_of_mem_splitUnderscore {l : List Char} {t : List Char} {c : Char}
    (ht : t ∈ splitUnderscore l) (hc : c ∈ t) : c ∈ l := by
  induction l generalizing t with
  | nil =>
    simp only [splitUnderscore, List.mem_singleton] at ht
    subst ht; cases hc
  | cons x rest ih =>
    by_cases hx : x = '_'
    · rw [splitUnderscore, if_pos hx] at ht
      rcases List.mem_cons.mp ht with rfl | ht
      · cases hc
      · exact List.mem_cons_of_mem _ (ih ht hc)
    · rw [splitUnderscore, if_neg hx] at ht
      rcases hsplit : splitUnderscore rest with _ | ⟨t0, ts⟩
      · rw [hsplit, List.mem_singleton] at ht
        subst ht
        rcases List.mem_singleton.mp hc with rfl
        exact List.mem_cons_self _ _
      · rw [hsplit] at ht
        rcases List.mem_cons.mp ht with rfl | ht
        · rcases List.mem_cons.mp hc with rfl | hc
          · exact List.mem_cons_self _ _
          · exact List.mem_cons_of_mem _
              (ih (t := t0) (hsplit ▸ List.mem_cons_self _ _) hc)
        · exact List.mem_cons_of_mem _
            (ih (hsplit ▸ List.mem_cons_of_mem _ ht) hc)

theorem mem_joinUnderscore {ts : List (List Char)} {c : Char}
    (hc : c ∈ joinUnderscore ts) : c = '_' ∨ ∃ t ∈ ts, c ∈ t := by
  induction ts with
  | nil => cases hc
  | cons t rest ih =>
    cases rest with
    | nil =>
      simp only [joinUnderscore] at hc
      exact Or.inr ⟨t, List.mem_cons_self _ _, hc⟩
    | cons t2 rest2 =>
      simp only [joinUnderscore, List.mem_append, List.mem_cons] at hc
      rcases hc with hc | rfl | hc
      · exact Or.inr ⟨t, List.mem_cons_self _ _, hc⟩
      · exact Or.inl rfl
      · rcases ih hc with h | ⟨t3, ht3, hct3⟩
        · exact Or.inl h
        · exact Or.inr ⟨t3, List.mem_cons_of_mem _ ht3, hct3⟩

theorem mem_collapseTokens {l : List Char} {c : Char}
    (hc : c ∈ collapseTokens l) : c = '_' ∨ c ∈ l := by
  rcases mem_joinUnderscore hc with h | ⟨t, ht, hct⟩
  · exact Or.inl h
  · exact Or.inr (mem_of_mem_splitUnderscore (List.mem_of_mem_filter ht) hct)

/-! ## Claim theorems for the name deriver -/

/-- C8: the three concrete derivations from the spec hold on the code. -/
theorem secret_name_to_env_var_examples :
    secret_name_to_env_var "db password" none = "DB_PASSWORD" ∧
    secret_name_to_env_var "api--key!!" none = "API_KEY" ∧
    secret_name_to_env_var "DB_PASSWORD" (some "app") = "APP_DB_PASSWORD" := by
  decide

/-- C1 counterexample: the claim says the supplied prefix undergoes the
identical transformation applied to the name, collapsing included; for the
name x and the prefix a!!b the code returns A__B_X (the double underscore
in the cleaned prefix is kept) while the claimed transformation yields
A_B_X. -/
theorem secret_name_to_env_var_prefix_collapse_counterexample :
    ¬ (secret_name_to_env_var "x" (some "a!!b") =
        specFullTransform "a!!b" ++ "_" ++ specFullTransform "x") := by
  decide

/-- C1 (amended): for a non-empty prefix the code applies to the prefix
only the uppercase and replace stages of the transformation (no collapsing
of underscore runs) and prepends the result followed by exactly one
underscore to the fully transformed name. -/
theorem secret_name_to_env_var_prefix_replace_only (name p : String) (hp : p ≠ "") :
    secret_name_to_env_var name (some p) =
      specReplaceStage p ++ "_" ++ specFullTransform name := by
  apply String.ext
  simp only [secret_name_to_env_var, specReplaceStage, specFullTransform,
    if_neg hp, String.data_append]
  simp

/-- Witness for the amended C1 theorem at the concrete prefix app. -/
theorem secret_name_to_env_var_prefix_replace_only_witness :
    ("app" : String) ≠ "" ∧
      secret_name_to_env_var "DB_PASSWORD" (some "app") =
        specReplaceStage "app" ++ "_" ++ specFullTransform "DB_PASSWORD" :=
  ⟨by decide, secret_name_to_env_var_prefix_replace_only "DB_PASSWORD" "app" (by decide)⟩

/-- C2 counterexample: the claim says every character that is not an ASCII
letter or ASCII digit is replaced by an underscore, so the non-ASCII input
consisting of the single accented letter would derive to the empty string;
the code classifies per Unicode, keeps the accented letter, and returns
its uppercase form. -/
theorem secret_name_to_env_var_ascii_counterexample :
    ¬ (secret_name_to_env_var "é" none = specAsciiFullTransform "é") := by
  decide

/-- C2 (amended): the derivation replaces every character of the
uppercased name that is not alphanumeric under the Unicode classification
used by Python (so non-ASCII alphanumeric characters are kept, not
replaced): the derivation collapses exactly the spec replace stage, and
every character of the output is alphanumeric or an underscore. -/
theorem secret_name_to_env_var_unicode_alnum (s : String) :
    secret_name_to_env_var s none = ⟨collapseTokens (specReplaceStage s).data⟩ ∧
    ∀ c ∈ (secret_name_to_env_var s none).data, pyIsAlnum c = true ∨ c = '_' := by
  constructor
  · rfl
  · intro c hc
    have hmem : c = '_' ∨ c ∈ (s.data.map pyCharUpper).map
        fun c => if pyIsAlnum c then c else '_' := by
      exact mem_collapseTokens hc
    rcases hmem with rfl | hmem
    · exact Or.inr rfl
    · rcases List.mem_map.mp hmem with ⟨a, _, rfl⟩
      by_cases ha : pyIsAlnum a
      · rw [if_pos ha]; exact Or.inl ha
      · rw [if_neg ha]; exact Or.inr rfl

/-! ## Secret decryptor (decrypt_secret, cli.py lines 151-167)

Bytes are naturals below 256.  The Python built-ins and library calls used
by decrypt_secret are modelled explicitly below. -/

/-- The three-field encrypted payload structure (matches the Rust
EncryptedData struct referenced at cli.py line 157). -/
structure EncryptedData where
  cipher : List Nat
  nonce : List Nat
  tag : List Nat
deriving DecidableEq

/-- Modelled from the spec: the value of one hexadecimal digit, as accepted
by bytes.fromhex. -/
def hexDigitVal (c : Char) : Option Nat :=
  if '0' ≤ c ∧ c ≤ '9' then some (c.toNat - 48)
  else if 'a' ≤ c ∧ c ≤ 'f' then some (c.toNat - 87)
  else if 'A' ≤ c ∧ c ≤ 'F' then some (c.toNat - 55)
  else none

/-- Modelled from the spec: bytes.fromhex, pairs of hexadecimal digits to
bytes, failing on a non-hex character or an odd number of digits
(whitespace between pairs, which bytes.fromhex would skip, never occurs in
the payloads handled here and is not modelled). -/
def hexDecodeChars : List Char → Option (List Nat)
  | [] => some []
  | [_] => none
  | c1 :: c2 :: rest =>
    match hexDigitVal c1, hexDigitVal c2, hexDecodeChars rest with
    | some hi, some lo, some bs => some ((hi * 16 + lo) :: bs)
    | _, _, _ => none

/-- Lowercase hexadecimal digit of a value below 16. -/
def hexDigitChar (n : Nat) : Char :=
  if n < 10 then Char.ofNat (48 + n) else Char.ofNat (87 + n)

/-- Modelled from the spec: bytes.hex, two lowercase hexadecimal digits per
byte (used only by the reference encryption routine). -/
def hexEncode (bs : List Nat) : List Char :=
  bs.flatMap fun b => [hexDigitChar (b / 16), hexDigitChar (b % 16)]

/-- Modelled from the spec: UTF-8 encoding of one Unicode scalar value, as
produced by Python str.encode. -/
def utf8EncodeChar (c : Char) : List Nat :=
  if c.toNat < 128 then [c.toNat]
  else if c.toNat < 2048 then [192 + c.toNat / 64, 128 + c.toNat % 64]
  else if c.toNat < 65536 then
    [224 + c.toNat / 4096, 128 + c.toNat / 64 % 64, 128 + c.toNat % 64]
  else
    [240 + c.toNat / 262144, 128 + c.toNat / 4096 % 64, 128 + c.toNat / 64 % 64,
      128 + c.toNat % 64]

/-- UTF-8 encoding of a string, byte list of the concatenated character
encodings. -/
def utf8Encode (s : String) : List Nat := s.data.flatMap utf8EncodeChar

/-- Continuation byte test of the strict UTF-8 decoder. -/
def isCont (b : Nat) : Bool := decide (128 ≤ b) && decide (b < 192)

/-- Scalar value of a two-byte UTF-8 sequence. -/
def utf8Val2 (b0 b1 : Nat) : Nat := (b0 - 192) * 64 + (b1 - 128)

/-- Scalar value of a three-byte UTF-8 sequence. -/
def utf8Val3 (b0 b1 b2 : Nat) : Nat := (b0 - 224) * 4096 + (b1 - 128) * 64 + (b2 - 128)

/-- Scalar value of a four-byte UTF-8 sequence. -/
def utf8Val4 (b0 b1 b2 b3 : Nat) : Nat :=
  (b0 - 240) * 262144 + (b1 - 128) * 4096 + (b2 - 128) * 64 + (b3 - 128)

/-- Validity of a three-byte scalar value: no overlong form, no surrogate. -/
def utf8Valid3 (v : Nat) : Bool :=
  decide (2048 ≤ v) && (decide (v < 55296) || decide (57343 < v))

/-- Validity of a four-byte scalar value: no overlong form, within the
Unicode range. -/
def utf8Valid4 (v : Nat) : Bool := decide (65536 ≤ v) && decide (v < 1114112)

/-- Worker of the strict UTF-8 decoder below, indexed by a recursion bound;
the bound only drives the recursion and never runs out when it starts at
the length of the byte list, since every step consumes at least one byte
and spends exactly one unit. -/
def utf8DecodeAux : Nat → List Nat → Option (List Char)
  | _, [] => some []
  | 0, _ :: _ => none
  | fuel + 1, b0 :: rest =>
    if b0 < 128 then (utf8DecodeAux fuel rest).map fun cs => Char.ofNat b0 :: cs
    else if b0 < 194 then none
    else if b0 < 224 then
      match rest with
      | b1 :: rest2 =>
        if isCont b1 then
          (utf8DecodeAux fuel rest2).map fun cs => Char.ofNat (utf8Val2 b0 b1) :: cs
        else none
      | [] => none
    else if b0 < 240 then
      match rest with
      | b1 :: b2 :: rest2 =>
        if isCont b1 && isCont b2 && utf8Valid3 (utf8Val3 b0 b1 b2) then
          (utf8DecodeAux fuel rest2).map fun cs => Char.ofNat (utf8Val3 b0 b1 b2) :: cs
        else none
      | _ => none
    else if b0 < 245 then
      match rest with
      | b1 :: b2 :: b3 :: rest2 =>
        if isCont b1 && isCont b2 && isCont b3 && utf8Valid4 (utf8Val4 b0 b1 b2 b3) then
          (utf8DecodeAux fuel rest2).map fun cs => Char.ofNat (utf8Val4 b0 b1 b2 b3) :: cs
        else none
      | _ => none
    else none

/-- Modelled from the spec: strict UTF-8 decoding as performed by Python
bytes.decode (rejecting stray continuation bytes, overlong forms,
surrogate code points and values beyond the Unicode range). -/
def utf8DecodeChars (bs : List Nat) : Option (List Char) := utf8DecodeAux bs.length bs

/-- Mixing accumulator used by the idealized cipher model below. -/
def mixList (l : List Nat) : Nat :=
  l.foldl (fun a b => (a * 257 + b + 1) % 65521) 5

/-- Modelled from the spec: the byte stream AES-GCM combines with the
plaintext (library code, not in src).  The block cipher itself is outside
the repository and is idealized as an explicit deterministic stream
depending on the key and the nonce, preserving the structural properties
the spec relies on: determinism and invertibility of the combining step. -/
def aeadKeystream (key nonce : List Nat) (n : Nat) : List Nat :=
  (List.range n).map fun i => (mixList key * 131 + mixList nonce * 31 + i * 7 + 13) % 256

/-- Modelled from the spec: the 16-byte GCM authentication tag (library
code, not in src), idealized as a deterministic function of key, nonce and
ciphertext. -/
def gcmTag (key nonce cipher : List Nat) : List Nat :=
  (List.range 16).map fun i =>
    (mixList key * 37 + mixList nonce * 17 + mixList cipher * 11 + i * 3 + 1) % 256

/-- Modelled from the spec: AESGCM(key).decrypt(nonce, data, None) of the
cryptography library.  The last 16 bytes of data are the expected tag; the
authentication check fails (InvalidTag) when data is shorter than a tag or
the tag does not match the one computed from key, nonce and ciphertext
(wrong key, corrupted ciphertext or tampered tag); otherwise the
ciphertext is combined with the keystream to recover the plaintext. -/
def aesgcmDecrypt (key nonce data : List Nat) : Option (List Nat) :=
  if data.length < 16 then none
  else if data.drop (data.length - 16) = gcmTag key nonce (data.take (data.length - 16))
  then
    some (List.zipWith (· ^^^ ·) (data.take (data.length - 16))
      (aeadKeystream key nonce (data.take (data.length - 16)).length))
  else none

/-- Modelled from the spec: the serialized three-field structure inside the
hex payload (produced by the external desktop application and parsed with
json.loads, both outside src).  The exact byte syntax is irrelevant to
every claim; it is modelled as an injective length-prefixed byte encoding
carrying the nonce, then the tag, then the ciphertext. -/
def serializeEncryptedData (e : EncryptedData) : List Nat :=
  e.nonce.length :: (e.nonce ++ e.tag.length :: (e.tag ++ e.cipher))

/-- Partial inverse of the serialization: fails exactly when the bytes do
not parse as the three-field structure. -/
def parseEncryptedData (bs : List Nat) : Option EncryptedData :=
  match bs with
  | [] => none
  | nLen :: rest =>
    if nLen ≤ rest.length then
      match rest.drop nLen with
      | [] => none
      | tLen :: rest2 =>
        if tLen ≤ rest2.length then
          some ⟨rest2.drop tLen, rest.take nLen, rest2.take tLen⟩
        else none
    else none

/-- The failure cases of decrypt_secret.  The Python function catches
nothing itself; each case is the exception class the corresponding stage
raises, which the caller observes as one opaque decryption failure. -/
inductive DecryptError where
  | hexError      -- ValueError from bytes.fromhex (line 154)
  | parseError    -- json.loads or field extraction failure (lines 155-160)
  | keySizeError  -- ValueError from the AESGCM constructor (line 163)
  | authError     -- InvalidTag from AESGCM.decrypt (line 165)
  | utf8Error     -- UnicodeDecodeError from bytes.decode (line 167)
deriving DecidableEq

/-- decrypt_secret from cli.py lines 151-167: hex-decode the payload,
parse the serialized structure into cipher, nonce and tag, rebuild the
AEAD input as cipher ++ tag, decrypt with AES-GCM under the session key
and the recovered nonce with no additional authenticated data, and decode
the resulting bytes as UTF-8 text.  The AESGCM constructor accepts only
128-, 192- or 256-bit keys. -/
def decrypt_secret (hex_encrypted_data : String) (session_key : List Nat) :
    Except DecryptError String :=
  match hexDecodeChars hex_encrypted_data.data with
  | none => .error .hexError
  | some serialized_data =>
    match parseEncryptedData serialized_data with
    | none => .error .parseError
    | some encrypted_data =>
      if session_key.length = 16 ∨ session_key.length = 24 ∨ session_key.length = 32 then
        match aesgcmDecrypt session_key encrypted_data.nonce
            (encrypted_data.cipher ++ encrypted_data.tag) with
        | none => .error .authError
        | some decrypted =>
          match utf8DecodeChars decrypted with
          | none => .error .utf8Error
          | some cs => .ok ⟨cs⟩
      else .error .keySizeError

/-- Modelled from the spec: the reference encryption routine (section 8 of
the spec notes an encryption routine is only needed as a test fixture):
UTF-8 encode the plaintext, combine it with the keystream, tag the
ciphertext, serialize the three-field structure and hex-encode it. -/
def encrypt_secret (plaintext : String) (key nonce : List Nat) : String :=
  let ptBytes := utf8Encode plaintext
  let cipher := List.zipWith (· ^^^ ·) ptBytes (aeadKeystream key nonce ptBytes.length)
  ⟨hexEncode (serializeEncryptedData ⟨cipher, nonce, gcmTag key nonce cipher⟩)⟩

/-! Helper lemmas about the byte-level codecs. -/

theorem hexDigitVal_hexDigitChar (d : Nat) (h : d < 16) :
    hexDigitVal (hexDigitChar d) = some d := by
  interval_cases d <;> rfl

theorem hexDecode_hexEncode : ∀ (bs : List Nat), (∀ b ∈ bs, b < 256) →
    hexDecodeChars (hexEncode bs) = some bs := by
  intro bs
  induction bs with
  | nil => intro _; rfl
  | cons b rest ih =>
    intro h
    have hb : b < 256 := h b (List.mem_cons_self _ _)
    show hexDecodeChars (hexDigitChar (b / 16) :: hexDigitChar (b % 16) :: hexEncode rest) = _
    rw [hexDecodeChars, hexDigitVal_hexDigitChar _ (by omega),
      hexDigitVal_hexDigitChar _ (by omega),
      ih fun x hx => h x (List.mem_cons_of_mem _ hx)]
    show some ((b / 16 * 16 + b % 16) :: rest) = some (b :: rest)
    have : b / 16 * 16 + b % 16 = b := by omega
    rw [this]

theorem parseEncryptedData_serialize (e : EncryptedData) :
    parseEncryptedData (serializeEncryptedData e) = some e := by
  obtain ⟨cipher, nonce, tag⟩ := e
  show parseEncryptedData
      (nonce.length :: (nonce ++ tag.length :: (tag ++ cipher))) = _
  rw [parseEncryptedData]
  rw [if_pos (by simp)]
  rw [List.drop_left]
  show (if tag.length ≤ (tag ++ cipher).length then _ else none) = _
  rw [if_pos (by simp), List.take_left, List.drop_left, List.take_left]

theorem utf8EncodeChar_lt (c : Char) : ∀ b ∈ utf8EncodeChar c, b < 256 := by
  have hv : c.toNat < 55296 ∨ (57343 < c.toNat ∧ c.toNat < 1114112) := c.valid
  intro b hb
  unfold utf8EncodeChar at hb
  split_ifs at hb with h1 h2 h3 <;>
    simp only [List.mem_cons, List.not_mem_nil, or_false] at hb
  · omega
  · rcases hb with rfl | rfl <;> omega
  · rcases hb with rfl | rfl | rfl <;> omega
  · rcases hb with rfl | rfl | rfl | rfl <;> omega

/-! Reduction shapes of the UTF-8 decoder worker, one per encoded length. -/

theorem utf8DecodeAux_cons1 (fuel b0 : Nat) (rest : List Nat) (h : b0 < 128) :
    utf8DecodeAux (fuel + 1) (b0 :: rest) =
      (utf8DecodeAux fuel rest).map fun cs => Char.ofNat b0 :: cs := by
  cases rest with
  | nil => rw [utf8DecodeAux.eq_4, if_pos h]
  | cons b1 rest2 => rw [utf8DecodeAux.eq_3, if_pos h]

theorem utf8DecodeAux_cons2 (fuel b0 b1 : Nat) (rest : List Nat)
    (h0 : 194 ≤ b0) (h0b : b0 < 224) (h1 : isCont b1 = true) :
    utf8DecodeAux (fuel + 1) (b0 :: b1 :: rest) =
      (utf8DecodeAux fuel rest).map fun cs => Char.ofNat (utf8Val2 b0 b1) :: cs := by
  rw [utf8DecodeAux.eq_3, if_neg (by omega), if_neg (by omega), if_pos h0b]
  show (if isCont b1 = true then
      (utf8DecodeAux fuel rest).map fun cs => Char.ofNat (utf8Val2 b0 b1) :: cs
    else none) = _
  rw [if_pos h1]

theorem utf8DecodeAux_cons3 (fuel b0 b1 b2 : Nat) (rest : List Nat)
    (h0 : 224 ≤ b0) (h0b : b0 < 240)
    (h1 : (isCont b1 && isCont b2 && utf8Valid3 (utf8Val3 b0 b1 b2)) = true) :
    utf8DecodeAux (fuel + 1) (b0 :: b1 :: b2 :: rest) =
      (utf8DecodeAux fuel rest).map fun cs => Char.ofNat (utf8Val3 b0 b1 b2) :: cs := by
  rw [utf8DecodeAux.eq_3, if_neg (by omega), if_neg (by omega), if_neg (by omega),
    if_pos h0b]
  show (if (isCont b1 && isCont b2 && utf8Valid3 (utf8Val3 b0 b1 b2)) = true then
      (utf8DecodeAux fuel rest).map fun cs => Char.ofNat (utf8Val3 b0 b1 b2) :: cs
    else none) = _
  rw [if_pos h1]

theorem utf8DecodeAux_cons4 (fuel b0 b1 b2 b3 : Nat) (rest : List Nat)
    (h0 : 240 ≤ b0) (h0b : b0 < 245)
    (h1 : (isCont b1 && isCont b2 && isCont b3 && utf8Valid4 (utf8Val4 b0 b1 b2 b3)) = true) :
    utf8DecodeAux (fuel + 1) (b0 :: b1 :: b2 :: b3 :: rest) =
      (utf8DecodeAux fuel rest).map fun cs => Char.ofNat (utf8Val4 b0 b1 b2 b3) :: cs := by
  rw [utf8DecodeAux.eq_3, if_neg (by omega), if_neg (by omega), if_neg (by omega),
    if_neg (by omega), if_pos h0b]
  show (if (isCont b1 && isCont b2 && isCont b3 && utf8Valid4 (utf8Val4 b0 b1 b2 b3)) = true
    then (utf8DecodeAux fuel rest).map fun cs => Char.ofNat (utf8Val4 b0 b1 b2 b3) :: cs
    else none) = _
  rw [if_pos h1]

/-- Decoding inverts encoding: the worker recovers the character list from
its UTF-8 bytes whenever the recursion bound is at least the byte count. -/
theorem utf8DecodeAux_encode : ∀ (l : List Char) (fuel : Nat),
    (l.flatMap utf8EncodeChar).length ≤ fuel →
    utf8DecodeAux fuel (l.flatMap utf8EncodeChar) = some l := by
  intro l
  induction l with
  | nil => intro fuel _; cases fuel <;> rfl
  | cons c l ih =>
    intro fuel hlen
    have hv : c.toNat < 55296 ∨ (57343 < c.toNat ∧ c.toNat < 1114112) := c.valid
    rw [List.flatMap_cons] at hlen ⊢
    obtain ⟨f, rfl⟩ : ∃ f, fuel = f + 1 := by
      cases fuel with
      | zero =>
        exfalso
        have hpos : 0 < (utf8EncodeChar c).length := by
          unfold utf8EncodeChar; split_ifs <;> simp
        simp only [List.length_append, Nat.le_zero] at hlen
        omega
      | succ f => exact ⟨f, rfl⟩
    rcases Nat.lt_or_ge c.toNat 128 with h1 | h1
    · rw [show utf8EncodeChar c = [c.toNat] from by
        unfold utf8EncodeChar; rw [if_pos h1]] at hlen ⊢
      have htail : (l.flatMap utf8EncodeChar).length ≤ f := by
        simp only [List.length_append, List.length_cons, List.length_nil] at hlen; omega
      rw [List.singleton_append, utf8DecodeAux_cons1 _ _ _ h1, ih f htail,
        Char.ofNat_toNat]
      rfl
    · rcases Nat.lt_or_ge c.toNat 2048 with h2 | h2
      · rw [show utf8EncodeChar c = [192 + c.toNat / 64, 128 + c.toNat % 64] from by
          unfold utf8EncodeChar; rw [if_neg (by omega), if_pos h2]] at hlen ⊢
        have htail : (l.flatMap utf8EncodeChar).length ≤ f := by
          simp only [List.length_append, List.length_cons, List.length_nil] at hlen; omega
        rw [show ([192 + c.toNat / 64, 128 + c.toNat % 64] : List Nat) ++
            l.flatMap utf8EncodeChar =
          (192 + c.toNat / 64) :: (128 + c.toNat % 64) :: l.flatMap utf8EncodeChar
          from rfl]
        rw [utf8DecodeAux_cons2 _ _ _ _ (by omega) (by omega)
          (by simp only [isCont, Bool.and_eq_true, decide_eq_true_eq]
              constructor <;> omega)]
        rw [show utf8Val2 (192 + c.toNat / 64) (128 + c.toNat % 64) = c.toNat from by
          unfold utf8Val2; omega]
        rw [ih f htail, Char.ofNat_toNat]
        rfl
      · rcases Nat.lt_or_ge c.toNat 65536 with h3 | h3
        · rw [show utf8EncodeChar c =
              [224 + c.toNat / 4096, 128 + c.toNat / 64 % 64, 128 + c.toNat % 64] from by
            unfold utf8EncodeChar
            rw [if_neg (by omega), if_neg (by omega), if_pos h3]] at hlen ⊢
          have htail : (l.flatMap utf8EncodeChar).length ≤ f := by
            simp only [List.length_append, List.length_cons, List.length_nil] at hlen
            omega
          rw [show ([224 + c.toNat / 4096, 128 + c.toNat / 64 % 64,
              128 + c.toNat % 64] : List Nat) ++ l.flatMap utf8EncodeChar =
            (224 + c.toNat / 4096) :: (128 + c.toNat / 64 % 64) ::
              (128 + c.toNat % 64) :: l.flatMap utf8EncodeChar from rfl]
          have hval : utf8Val3 (224 + c.toNat / 4096) (128 + c.toNat / 64 % 64)
              (128 + c.toNat % 64) = c.toNat := by
            unfold utf8Val3; omega
          rw [utf8DecodeAux_cons3 _ _ _ _ _ (by omega) (by omega)
            (by rw [hval]
                simp only [isCont, utf8Valid3, Bool.and_eq_true, Bool.or_eq_true,
                  decide_eq_true_eq]
                refine ⟨⟨⟨by omega, by omega⟩, by omega, by omega⟩, by omega, by omega⟩)]
          rw [hval, ih f htail, Char.ofNat_toNat]
          rfl
        · rw [show utf8EncodeChar c =
              [240 + c.toNat / 262144, 128 + c.toNat / 4096 % 64, 128 + c.toNat / 64 % 64,
                128 + c.toNat % 64] from by
            unfold utf8EncodeChar
            rw [if_neg (by omega), if_neg (by omega), if_neg (by omega)]] at hlen ⊢
          have htail : (l.flatMap utf8EncodeChar).length ≤ f := by
            simp only [List.length_append, List.length_cons, List.length_nil] at hlen
            omega
          rw [show ([240 + c.toNat / 262144, 128 + c.toNat / 4096 % 64,
              128 + c.toNat / 64 % 64, 128 + c.toNat % 64] : List Nat) ++
              l.flatMap utf8EncodeChar =
            (240 + c.toNat / 262144) :: (128 + c.toNat / 4096 % 64) ::
              (128 + c.toNat / 64 % 64) :: (128 + c.toNat % 64) ::
                l.flatMap utf8EncodeChar from rfl]
          have hval : utf8Val4 (240 + c.toNat / 262144) (128 + c.toNat / 4096 % 64)
              (128 + c.toNat / 64 % 64) (128 + c.toNat % 64) = c.toNat := by
            unfold utf8Val4; omega
          rw [utf8DecodeAux_cons4 _ _ _ _ _ _ (by omega) (by omega)
            (by rw [hval]
                simp only [isCont, utf8Valid4, Bool.and_eq_true, decide_eq_true_eq]
                refine ⟨⟨⟨⟨by omega, by omega⟩, by omega, by omega⟩, by omega, by omega⟩,
                  by omega, by omega⟩)]
          rw [hval, ih f htail, Char.ofNat_toNat]
          rfl

theorem utf8DecodeChars_utf8Encode (s : String) :
    utf8DecodeChars (utf8Encode s) = some s.data :=
  utf8DecodeAux_encode s.data _ (Nat.le_refl _)

/-! Helper lemmas about the idealized AEAD. -/

theorem aeadKeystream_length (key nonce : List Nat) (n : Nat) :
    (aeadKeystream key nonce n).length = n := by
  simp [aeadKeystream]

theorem aeadKeystream_lt (key nonce : List Nat) (n : Nat) :
    ∀ b ∈ aeadKeystream key nonce n, b < 256 := by
  intro b hb
  simp only [aeadKeystream, List.mem_map] at hb
  obtain ⟨i, _, rfl⟩ := hb
  exact Nat.mod_lt _ (by omega)

theorem gcmTag_length (key nonce cipher : List Nat) :
    (gcmTag key nonce cipher).length = 16 := by
  simp [gcmTag]

theorem gcmTag_lt (key nonce cipher : List Nat) :
    ∀ b ∈ gcmTag key nonce cipher, b < 256 := by
  intro b hb
  simp only [gcmTag, List.mem_map] at hb
  obtain ⟨i, _, rfl⟩ := hb
  exact Nat.mod_lt _ (by omega)

theorem zipWith_xor_lt : ∀ (l ks : List Nat), (∀ b ∈ l, b < 256) → (∀ b ∈ ks, b < 256) →
    ∀ b ∈ List.zipWith (· ^^^ ·) l ks, b < 256
  | [], _, _, _ => by simp
  | _ :: _, [], _, _ => by simp
  | a :: l, k :: ks, hl, hks => by
    intro b hb
    simp only [List.zipWith_cons_cons, List.mem_cons] at hb
    rcases hb with rfl | hb
    · have h256 : (256 : Nat) = 2 ^ 8 := rfl
      rw [h256]
      exact Nat.xor_lt_two_pow (h256 ▸ hl a (List.mem_cons_self _ _))
        (h256 ▸ hks k (List.mem_cons_self _ _))
    · exact zipWith_xor_lt l ks (fun x hx => hl x (List.mem_cons_of_mem _ hx))
        (fun x hx => hks x (List.mem_cons_of_mem _ hx)) b hb

theorem zipWith_xor_cancel : ∀ (l ks : List Nat), l.length ≤ ks.length →
    List.zipWith (· ^^^ ·) (List.zipWith (· ^^^ ·) l ks) ks = l
  | [], _, _ => by simp
  | _ :: _, [], h => by simp at h
  | a :: l, k :: ks, h => by
    simp only [List.zipWith_cons_cons]
    rw [show (a ^^^ k) ^^^ k = a from Nat.xor_cancel_right k a,
      zipWith_xor_cancel l ks (by simpa using h)]

/-- Decrypting the AEAD input rebuilt from a ciphertext and its matching
tag succeeds and returns the keystream combination. -/
theorem aesgcmDecrypt_append_tag (key nonce cipher : List Nat) :
    aesgcmDecrypt key nonce (cipher ++ gcmTag key nonce cipher) =
      some (List.zipWith (· ^^^ ·) cipher (aeadKeystream key nonce cipher.length)) := by
  have hlen : (cipher ++ gcmTag key nonce cipher).length = cipher.length + 16 := by
    rw [List.length_append, gcmTag_length]
  unfold aesgcmDecrypt
  rw [hlen, if_neg (by omega), Nat.add_sub_cancel, List.take_left, List.drop_left,
    if_pos rfl]

/-- Shape of every successful run of decrypt_secret: the four stages in
order. -/
theorem decrypt_secret_pipeline (p : String) (key bs : List Nat) (ed : EncryptedData)
    (pt : List Nat) (cs : List Char)
    (h1 : hexDecodeChars p.data = some bs)
    (h2 : parseEncryptedData bs = some ed)
    (hk : key.length = 16 ∨ key.length = 24 ∨ key.length = 32)
    (h3 : aesgcmDecrypt key ed.nonce (ed.cipher ++ ed.tag) = some pt)
    (h4 : utf8DecodeChars pt = some cs) :
    decrypt_secret p key = .ok ⟨cs⟩ := by
  unfold decrypt_secret
  simp only [h1, h2]
  rw [if_pos hk]
  simp only [h3, h4]

/-! ## Claim theorems for the secret decryptor -/

/-- C3: with a 32-byte session key, decrypt_secret fails exactly when the
hex decoding fails, or the decoded bytes do not parse as the three-field
structure, or the AES-GCM authentication check fails (wrong key, corrupted
ciphertext or tampered tag), or the decrypted bytes are not valid UTF-8;
in every other case it returns the plaintext string. -/
theorem decrypt_secret_error_iff (p : String) (key : List Nat) (hk : key.length = 32) :
    (∃ e, decrypt_secret p key = .error e) ↔
      hexDecodeChars p.data = none ∨
      (∃ bs, hexDecodeChars p.data = some bs ∧ parseEncryptedData bs = none) ∨
      (∃ bs ed, hexDecodeChars p.data = some bs ∧ parseEncryptedData bs = some ed ∧
        aesgcmDecrypt key ed.nonce (ed.cipher ++ ed.tag) = none) ∨
      (∃ bs ed pt, hexDecodeChars p.data = some bs ∧ parseEncryptedData bs = some ed ∧
        aesgcmDecrypt key ed.nonce (ed.cipher ++ ed.tag) = some pt ∧
        utf8DecodeChars pt = none) := by
  have hk3 : key.length = 16 ∨ key.length = 24 ∨ key.length = 32 := Or.inr (Or.inr hk)
  unfold decrypt_secret
  cases hhex : hexDecodeChars p.data with
  | none => simp [hhex]
  | some bs =>
    cases hparse : parseEncryptedData bs with
    | none => simp [hhex, hparse]
    | some ed =>
      cases hdec : aesgcmDecrypt key ed.nonce (ed.cipher ++ ed.tag) with
      | none => simp [hhex, hparse, hdec, hk3]
      | some pt =>
        cases hutf : utf8DecodeChars pt with
        | none => simp [hhex, hparse, hdec, hutf, hk3]
        | some cs => simp [hhex, hparse, hdec, hutf, hk3]

/-- Witness for C3 at a payload that is not valid hex and the all-zero
32-byte key. -/
theorem decrypt_secret_error_iff_witness :
    (List.replicate 32 0).length = 32 ∧
      ((∃ e, decrypt_secret "zz" (List.replicate 32 0) = .error e) ↔
        hexDecodeChars ("zz" : String).data = none ∨
        (∃ bs, hexDecodeChars ("zz" : String).data = some bs ∧
          parseEncryptedData bs = none) ∨
        (∃ bs ed, hexDecodeChars ("zz" : String).data = some bs ∧
          parseEncryptedData bs = some ed ∧
          aesgcmDecrypt (List.replicate 32 0) ed.nonce (ed.cipher ++ ed.tag) = none) ∨
        (∃ bs ed pt, hexDecodeChars ("zz" : String).data = some bs ∧
          parseEncryptedData bs = some ed ∧
          aesgcmDecrypt (List.replicate 32 0) ed.nonce (ed.cipher ++ ed.tag) = some pt ∧
          utf8DecodeChars pt = none)) :=
  ⟨by decide, decrypt_secret_error_iff "zz" (List.replicate 32 0) (by decide)⟩

/-- C4: every successful run of decrypt_secret with a 32-byte key computes
its result by exactly these stages: hex-decode the payload, parse out the
nonce, cipher and tag, concatenate cipher then tag as the AEAD input,
decrypt with AES-256-GCM under the session key and recovered nonce with no
additional authenticated data, and decode the resulting bytes as UTF-8. -/
theorem decrypt_secret_success_steps (p : String) (key : List Nat) (s : String)
    (hk : key.length = 32) (h : decrypt_secret p key = .ok s) :
    ∃ bs ed pt, hexDecodeChars p.data = some bs ∧ parseEncryptedData bs = some ed ∧
      aesgcmDecrypt key ed.nonce (ed.cipher ++ ed.tag) = some pt ∧
      utf8DecodeChars pt = some s.data := by
  have hk3 : key.length = 16 ∨ key.length = 24 ∨ key.length = 32 := Or.inr (Or.inr hk)
  unfold decrypt_secret at h
  cases hhex : hexDecodeChars p.data with
  | none => rw [hhex] at h; exact absurd h (by simp)
  | some bs =>
    rw [hhex] at h
    cases hparse : parseEncryptedData bs with
    | none =>
      simp only [hparse] at h
      exact Except.noConfusion h
    | some ed =>
      simp only [hparse] at h
      rw [if_pos hk3] at h
      cases hdec : aesgcmDecrypt key ed.nonce (ed.cipher ++ ed.tag) with
      | none =>
        simp only [hdec] at h
        exact Except.noConfusion h
      | some pt =>
        simp only [hdec] at h
        cases hutf : utf8DecodeChars pt with
        | none =>
          simp only [hutf] at h
          exact Except.noConfusion h
        | some cs =>
          simp only [hutf] at h
          obtain rfl : (⟨cs⟩ : String) = s := by simpa using h
          exact ⟨bs, ed, pt, rfl, hparse, hdec, hutf⟩

set_option maxRecDepth 10000 in
/-- Witness for C4 at a concrete successful decryption under the all-zero
key and nonce. -/
theorem decrypt_secret_success_steps_witness :
    (List.replicate 32 0).length = 32 ∧
    decrypt_secret (encrypt_secret "hi" (List.replicate 32 0) (List.replicate 12 0))
      (List.replicate 32 0) = .ok "hi" ∧
    ∃ bs ed pt,
      hexDecodeChars
        (encrypt_secret "hi" (List.replicate 32 0) (List.replicate 12 0)).data = some bs ∧
      parseEncryptedData bs = some ed ∧
      aesgcmDecrypt (List.replicate 32 0) ed.nonce (ed.cipher ++ ed.tag) = some pt ∧
      utf8DecodeChars pt = some ("hi" : String).data :=
  ⟨by decide, by rfl,
    decrypt_secret_success_steps _ (List.replicate 32 0) "hi" (by decide) (by rfl)⟩

/-- C9: decrypting an encryption of any plaintext under any valid 32-byte
key (with a 12-byte nonce, the reference encryption routine producing the
hex-encoded nonce/cipher/tag structure) returns the original plaintext. -/
theorem decrypt_encrypt_roundtrip (plaintext : String) (key nonce : List Nat)
    (hkey : key.length = 32) (hnlen : nonce.length = 12)
    (hnb : ∀ b ∈ nonce, b < 256) :
    decrypt_secret (encrypt_secret plaintext key nonce) key = .ok plaintext := by
  have hpt256 : ∀ b ∈ utf8Encode plaintext, b < 256 := by
    intro b hb
    simp only [utf8Encode, List.mem_flatMap] at hb
    obtain ⟨c, _, hc⟩ := hb
    exact utf8EncodeChar_lt c b hc
  set P := utf8Encode plaintext with hP
  set K := aeadKeystream key nonce P.length with hK
  set C := List.zipWith (· ^^^ ·) P K with hC
  have hC256 : ∀ b ∈ C, b < 256 := by
    rw [hC]
    exact zipWith_xor_lt P K hpt256 (aeadKeystream_lt _ _ _)
  have hser : ∀ b ∈ serializeEncryptedData ⟨C, nonce, gcmTag key nonce C⟩, b < 256 := by
    intro b hb
    simp only [serializeEncryptedData, List.mem_cons, List.mem_append] at hb
    rcases hb with rfl | hb | rfl | hb | hb
    · omega
    · exact hnb b hb
    · rw [gcmTag_length]; omega
    · exact gcmTag_lt _ _ _ b hb
    · exact hC256 b hb
  have h1 : hexDecodeChars (encrypt_secret plaintext key nonce).data =
      some (serializeEncryptedData ⟨C, nonce, gcmTag key nonce C⟩) :=
    hexDecode_hexEncode _ hser
  have h3 : aesgcmDecrypt key nonce (C ++ gcmTag key nonce C) = some P := by
    rw [aesgcmDecrypt_append_tag]
    have hlenC : C.length = P.length := by
      rw [hC, List.length_zipWith, hK, aeadKeystream_length, Nat.min_self]
    rw [hlenC, ← hK, hC]
    rw [zipWith_xor_cancel P K (by rw [hK, aeadKeystream_length])]
  have h4 : utf8DecodeChars P = some plaintext.data := by
    rw [hP]; exact utf8DecodeChars_utf8Encode plaintext
  have hfin := decrypt_secret_pipeline (encrypt_secret plaintext key nonce) key
    (serializeEncryptedData ⟨C, nonce, gcmTag key nonce C⟩)
    ⟨C, nonce, gcmTag key nonce C⟩ P plaintext.data h1
    (parseEncryptedData_serialize _) (Or.inr (Or.inr hkey)) h3 h4
  rw [show (⟨plaintext.data⟩ : String) = plaintext from String.ext rfl] at hfin
  exact hfin

/-- Witness for C9 at the plaintext hi, the all-zero 32-byte key and the
all-zero 12-byte nonce. -/
theorem decrypt_encrypt_roundtrip_witness :
    (List.replicate 32 0).length = 32 ∧ (List.replicate 12 0).length = 12 ∧
    (∀ b ∈ List.replicate 12 0, b < 256) ∧
    decrypt_secret (encrypt_secret "hi" (List.replicate 32 0) (List.replicate 12 0))
      (List.replicate 32 0) = .ok "hi" :=
  ⟨by decide, by decide, by decide,
    decrypt_encrypt_roundtrip "hi" (List.replicate 32 0) (List.replicate 12 0)
      (by decide) (by decide) (by decide)⟩

/-! ## Environment materializer (run, cli.py lines 348-357) -/

/-- The decrypt-and-inject loop of the run command (cli.py lines 348-357):
each entry of encrypted_secrets is decrypted with the session key; a
success assigns the derived environment variable name to the plaintext, in
input order; a failure is recorded (the secret name is reported) and the
entry is skipped without stopping the loop. -/
def materialize (key : List Nat) (pfx : Option String) :
    List (String × String) → List (String × String) × List String
  | [] => ([], [])
  | (secret_name, hex_encrypted) :: rest =>
    match decrypt_secret hex_encrypted key with
    | .ok v =>
      ((secret_name_to_env_var secret_name pfx, v) :: (materialize key pfx rest).1,
        (materialize key pfx rest).2)
    | .error _ =>
      ((materialize key pfx rest).1, secret_name :: (materialize key pfx rest).2)

/-- Lookup in the dictionary built by the successive env[name] = value
assignments of the loop: the last assignment of a name wins. -/
def envGet (env : List (String × String)) (name : String) : Option String :=
  (env.reverse.find? fun e => e.1 == name).map fun e => e.2

theorem materialize_append (key : List Nat) (pfx : Option String) :
    ∀ (l1 l2 : List (String × String)),
      materialize key pfx (l1 ++ l2) =
        ((materialize key pfx l1).1 ++ (materialize key pfx l2).1,
          (materialize key pfx l1).2 ++ (materialize key pfx l2).2)
  | [], l2 => by simp [materialize]
  | (n, h) :: l1, l2 => by
    rw [List.cons_append, materialize, materialize, materialize_append key pfx l1 l2]
    cases decrypt_secret h key <;> rfl

/-- Every assignment the loop produces comes from an entry that decrypted
successfully, under that entry's derived name. -/
theorem mem_materialize_env (key : List Nat) (pfx : Option String) :
    ∀ (l : List (String × String)) (kv : String × String),
      kv ∈ (materialize key pfx l).1 →
      ∃ n h, (n, h) ∈ l ∧ decrypt_secret h key = .ok kv.2 ∧
        kv.1 = secret_name_to_env_var n pfx
  | [], kv => by simp [materialize]
  | (n, h) :: rest, kv => by
    intro hmem
    rw [materialize] at hmem
    cases hd : decrypt_secret h key with
    | ok v =>
      simp only [hd] at hmem
      rcases List.mem_cons.mp hmem with rfl | hmem
      · exact ⟨n, h, List.mem_cons_self _ _, hd, rfl⟩
      · obtain ⟨n2, h2, hm, hdec, hname⟩ := mem_materialize_env key pfx rest kv hmem
        exact ⟨n2, h2, List.mem_cons_of_mem _ hm, hdec, hname⟩
    | error e =>
      simp only [hd] at hmem
      obtain ⟨n2, h2, hm, hdec, hname⟩ := mem_materialize_env key pfx rest kv hmem
      exact ⟨n2, h2, List.mem_cons_of_mem _ hm, hdec, hname⟩

/-- All-zero 32-byte session key for the concrete examples. -/
def zeroKey : List Nat := List.replicate 32 0

/-- All-zero 12-byte nonce for the concrete examples. -/
def zeroNonce : List Nat := List.replicate 12 0

set_option maxRecDepth 40000 in
/-- C5 counterexample: the secret names a b and a_b both derive to A_B;
with both entries decrypting successfully, the environment maps A_B only
to the plaintext of the later entry, so it does not contain the derived
name and plaintext of the earlier successful entry as the claim states. -/
theorem materialize_collision_counterexample :
    decrypt_secret (encrypt_secret "x" zeroKey zeroNonce) zeroKey = .ok "x" ∧
    ("a b", encrypt_secret "x" zeroKey zeroNonce) ∈
      [("a b", encrypt_secret "x" zeroKey zeroNonce),
        ("a_b", encrypt_secret "y" zeroKey zeroNonce)] ∧
    envGet (materialize zeroKey none
        [("a b", encrypt_secret "x" zeroKey zeroNonce),
          ("a_b", encrypt_secret "y" zeroKey zeroNonce)]).1
      (secret_name_to_env_var "a b" none) ≠ some "x" :=
  ⟨rfl, List.mem_cons_self _ _, by decide⟩

/-- C5 (amended): a per-secret decryption failure is recorded and skipped
without aborting the loop: the environment maps the derived name of every
successful entry whose derived name is not reused by a later successful
entry to that entry's plaintext, no matter how many other entries fail. -/
theorem materialize_success_lookup (key : List Nat) (pfx : Option String)
    (pre post : List (String × String)) (n h v : String)
    (hdec : decrypt_secret h key = .ok v)
    (hnocol : ∀ n2 h2, (n2, h2) ∈ post → ∀ v2, decrypt_secret h2 key = .ok v2 →
      secret_name_to_env_var n2 pfx ≠ secret_name_to_env_var n pfx) :
    envGet (materialize key pfx (pre ++ (n, h) :: post)).1
      (secret_name_to_env_var n pfx) = some v := by
  rw [materialize_append, materialize]
  simp only [hdec]
  unfold envGet
  rw [List.reverse_append, List.reverse_cons, List.find?_append]
  have hpost : ((materialize key pfx post).1.reverse.find? fun e =>
      e.1 == secret_name_to_env_var n pfx) = none := by
    rw [List.find?_eq_none]
    intro kv hkv
    rw [List.mem_reverse] at hkv
    obtain ⟨n2, h2, hm, hdec2, hname⟩ := mem_materialize_env key pfx post kv hkv
    simp only [beq_iff_eq, hname]
    exact hnocol n2 h2 hm kv.2 hdec2
  rw [List.find?_append, hpost]
  simp

set_option maxRecDepth 40000 in
/-- Witness for the amended C5 theorem: one failing entry ahead of the
successful one, empty tail. -/
theorem materialize_success_lookup_witness :
    decrypt_secret (encrypt_secret "x" zeroKey zeroNonce) zeroKey = .ok "x" ∧
    envGet (materialize zeroKey none
        ([("bad", "zz")] ++ ("a b", encrypt_secret "x" zeroKey zeroNonce) :: [])).1
      (secret_name_to_env_var "a b" none) = some "x" :=
  ⟨rfl, materialize_success_lookup zeroKey none [("bad", "zz")] [] "a b" _ "x" rfl
    (by intro n2 h2 hm; simp at hm)⟩

/-! ## Session store reader (SessionFile.list_all, ProjectContext, stop;
cli.py lines 56-116 and 367-385) -/

/-- Session file structure (matches the Rust CliSessionFile; cli.py lines
56-64). -/
structure SessionRecord where
  session_name : String
  box_name : String
  session_key : List Nat
  encrypted_secrets : List (String × String)
  created_at : String
deriving DecidableEq

/-- The Python exception classes relevant to the session store paths. -/
inductive PyError where
  | jsonDecodeError  -- json.JSONDecodeError from json.load
  | keyError         -- KeyError from a missing field in __init__
  | ioError          -- IOError while reading the file
  | valueError       -- ValueError, e.g. from bytes.fromhex on a non-hex session_key
deriving DecidableEq

/-- The except clause at cli.py line 91: except (json.JSONDecodeError,
KeyError, IOError).  A ValueError that is not a JSONDecodeError, such as
the one bytes.fromhex raises at line 62 when session_key is not valid hex,
is not an instance of any listed class and is not caught. -/
def caughtByListAll : PyError → Bool
  | .jsonDecodeError => true
  | .keyError => true
  | .ioError => true
  | .valueError => false

/-- Reading loop of SessionFile.list_all (cli.py lines 86-92): each file
either parses to a record or raises some exception; a caught exception
skips the file and continues, anything else propagates out of the loop. -/
def collectSessions : List (Except PyError SessionRecord) → Except PyError (List SessionRecord)
  | [] => .ok []
  | .ok r :: rest => (collectSessions rest).map fun rs => r :: rs
  | .error e :: rest =>
    if caughtByListAll e then collectSessions rest else .error e

/-- Sort relation of cli.py line 94: created_at descending (Python string
comparison, lexicographic). -/
def createdGe (a b : SessionRecord) : Prop := b.created_at ≤ a.created_at

instance : DecidableRel createdGe := fun a b =>
  inferInstanceAs (Decidable (b.created_at ≤ a.created_at))

instance : IsTotal SessionRecord createdGe := ⟨fun a b => le_total b.created_at a.created_at⟩

instance : IsTrans SessionRecord createdGe := ⟨fun _ _ _ hab hbc => le_trans hbc hab⟩

/-- SessionFile.list_all (cli.py lines 79-94): parse every session file in
the sessions directory, skipping files whose failure is caught, and return
the records sorted by created_at descending. -/
def list_all (files : List (Except PyError SessionRecord)) :
    Except PyError (List SessionRecord) :=
  (collectSessions files).map fun rs => List.insertionSort createdGe rs

/-- A concrete well-formed session record for the listing example. -/
def goodRec : SessionRecord := ⟨"dev", "box", List.replicate 32 0, [], "2024-01-01"⟩

/-- C6: a session file whose session_key field is not valid hex makes
bytes.fromhex raise ValueError; the except clause catches only
json.JSONDecodeError, KeyError and IOError, so the error propagates,
listing aborts, and even the well-formed session is not returned —
contradicting the claim that every malformed file is skipped silently. -/
theorem list_all_valueError_aborts :
    list_all [.ok goodRec, .error .valueError] = .error .valueError ∧
    ∀ result : List SessionRecord,
      list_all [.ok goodRec, .error .valueError] ≠ .ok result := by
  refine ⟨rfl, fun result h => ?_⟩
  rw [show list_all [.ok goodRec, .error .valueError] = .error .valueError from rfl] at h
  exact Except.noConfusion h

/-- Typed view of the JSON object in a zap.json file: each field may be
present or absent. -/
structure ZapJsonFields where
  app : Option String
  current_session : Option String
  available_secrets : Option (List String)

/-- Content of a zap.json file on disk: either not valid JSON, or a JSON
object with optional fields. -/
inductive ZapFileContent where
  | invalid
  | valid (d : ZapJsonFields)

/-- Project context record (cli.py lines 100-103). -/
structure ProjectContext where
  app : String
  current_session : String
  available_secrets : List String

/-- ProjectContext.load (cli.py lines 105-116) over the file state: an
absent file loads as none; a file that is not valid JSON raises
json.JSONDecodeError, which is caught, loading as none; on a JSON object,
app defaults to zap and available_secrets to the empty list (dict.get with
default), while a missing current_session key raises KeyError, which is
caught, loading as none. -/
def ProjectContext.load : Option ZapFileContent → Option ProjectContext
  | none => none
  | some .invalid => none
  | some (.valid d) =>
    match d.current_session with
    | none => none
    | some cs => some ⟨d.app.getD "zap", cs, d.available_secrets.getD []⟩

/-- Filesystem state the stop command touches: the names of the existing
session files and the zap.json of the working directory (none when the
file does not exist). -/
structure CliState where
  sessionFiles : List String
  zapFile : Option ZapFileContent

/-- stop (cli.py lines 367-385): when the named session file exists it is
deleted, and if the project context then loads with its current_session
equal to the stopped name, zap.json is deleted as well; otherwise nothing
else changes (a missing session file leaves the state untouched). -/
def stop (session_name : String) (st : CliState) : CliState :=
  if session_name ∈ st.sessionFiles then
    match ProjectContext.load st.zapFile with
    | some context =>
      if context.current_session = session_name then
        ⟨st.sessionFiles.erase session_name, none⟩
      else ⟨st.sessionFiles.erase session_name, st.zapFile⟩
    | none => ⟨st.sessionFiles.erase session_name, st.zapFile⟩
  else st

/-! ## Claim theorems for the session store -/

/-- C7: in every state where the project context file exists and names
session s as current_session, stopping s (with the session file present)
also deletes the project context file: no zap.json remains afterwards. -/
theorem stop_clears_project_context (st : CliState) (s : String)
    (hfile : s ∈ st.sessionFiles)
    (hctx : ∃ context, ProjectContext.load st.zapFile = some context ∧
      context.current_session = s) :
    (stop s st).zapFile = none := by
  obtain ⟨context, hload, hcur⟩ := hctx
  unfold stop
  rw [if_pos hfile]
  simp only [hload]
  rw [if_pos hcur]

/-- Witness for C7 at a concrete state whose zap.json names the stopped
session. -/
theorem stop_clears_project_context_witness :
    "dev" ∈ (CliState.mk ["dev"]
      (some (.valid ⟨none, some "dev", none⟩))).sessionFiles ∧
    (∃ context, ProjectContext.load (CliState.mk ["dev"]
        (some (.valid ⟨none, some "dev", none⟩))).zapFile = some context ∧
      context.current_session = "dev") ∧
    (stop "dev" (CliState.mk ["dev"]
      (some (.valid ⟨none, some "dev", none⟩)))).zapFile = none :=
  ⟨by decide, ⟨⟨"zap", "dev", []⟩, rfl, rfl⟩,
    stop_clears_project_context _ _ (by decide) ⟨⟨"zap", "dev", []⟩, rfl, rfl⟩⟩

/-- C10: a zap.json that parses as a JSON object loads exactly when it has
a current_session key: without it load returns the not-found result rather
than failing, while a missing app key defaults to zap and a missing
available_secrets key defaults to the empty list. -/
theorem projectContext_load_fields (d : ZapJsonFields) :
    ProjectContext.load (some (.valid d)) =
      d.current_session.map fun cs =>
        ⟨d.app.getD "zap", cs, d.available_secrets.getD []⟩ := by
  obtain ⟨a, c, s⟩ := d
  cases c <;> rfl

end Zap
